import Mathlib

/-!
Verification of the concurrency core of the langscape repository
(src/Rust/concurrency.rs), the "Concurrent Task & Messaging Primitives"
library of its specification.

The repository's source is tutorial usage of the primitives (thread
spawn/join, mpsc channels, Arc<Mutex<_>> shared counters); the primitives
themselves live in the language's standard library, outside the repository.
Each primitive is therefore modelled from the specification (definitions
carry a `Modelled from the spec:` note), while the demonstration programs
(the shared-counter loop, the single-message channel demo) are embedded
from the source file itself.

The shared-counter demonstration is embedded as a small-step transition
system: each spawned task runs the protocol
  lock-acquire; read the counter; write read-value + 1 and release,
and a scheduler may interleave the tasks arbitrarily, except that the
lock-acquire step is enabled only while no other task holds the lock
(mutual exclusion) and the lock is released at the end of the critical
scope (the write step), mirroring the scoped guard in the source.
-/

/-- Program counter of one spawned incrementing task in the shared-counter
demonstration (src/Rust/concurrency.rs, the `for _ in 1..10` loop):
`start` before `counter.lock()`, `holding` once the lock is acquired,
`haveVal v` once `*sptr` has been read (value `v`), `done` after the
store of `v + 1` and the scope-exit release of the lock. -/
inductive PC where
  | start : PC
  | holding : PC
  | haveVal : Int → PC
  | done : PC
deriving DecidableEq

/-- A task holds the mutex exactly in the states between acquisition and
the releasing write. -/
def holdsLock : PC → Bool
  | PC.holding => true
  | PC.haveVal _ => true
  | _ => false

/-- Recognizer for a finished task. -/
def isDone : PC → Bool
  | PC.done => true
  | _ => false

/-- Global state of the shared-counter program: the program counters of the
spawned tasks and the integer behind the `Mutex` (the Shared Cell). -/
structure CState where
  pcs : List PC
  counter : Int
deriving DecidableEq

/-- One scheduler step of the shared-counter program.  The position of the
stepping task is given by the zipper `l ++ _ :: r`.  `acquire` requires the
lock to be free (no task in a lock-holding state): a task whose `lock()`
call is not enabled is blocked.  `write` stores the read value plus one and
releases the lock (the guard goes out of scope). -/
inductive Step : CState → CState → Prop where
  | acquire (l r : List PC) (c : Int)
      (hfree : (l ++ PC.start :: r).countP holdsLock = 0) :
      Step ⟨l ++ PC.start :: r, c⟩ ⟨l ++ PC.holding :: r, c⟩
  | read (l r : List PC) (c : Int) :
      Step ⟨l ++ PC.holding :: r, c⟩ ⟨l ++ PC.haveVal c :: r, c⟩
  | write (l r : List PC) (c v : Int) :
      Step ⟨l ++ PC.haveVal v :: r, c⟩ ⟨l ++ PC.done :: r, v + 1⟩

/-- Initial state: `n` spawned tasks, counter `Mutex::new(0)`. -/
def init (n : Nat) : CState := ⟨List.replicate n PC.start, 0⟩

/-- Reachability under arbitrary interleaving of the tasks. -/
def Reachable : CState → CState → Prop := Relation.ReflTransGen Step

/-- Inductive invariant of the shared-counter program: the task count is
stable, at most one task holds the lock, the counter equals the number of
finished tasks, and a task that has read the counter read its current
value. -/
def CounterInv (n : Nat) (s : CState) : Prop :=
  s.pcs.length = n ∧
  s.pcs.countP holdsLock ≤ 1 ∧
  s.counter = (s.pcs.countP isDone : Int) ∧
  ∀ v : Int, PC.haveVal v ∈ s.pcs → v = s.counter

theorem countP_middle (p : PC → Bool) (l r : List PC) (a : PC) :
    (l ++ a :: r).countP p
      = l.countP p + r.countP p + (if p a then 1 else 0) := by
  rw [List.countP_append, List.countP_cons]
  omega

theorem ite_hl_start : (if holdsLock PC.start then (1 : Nat) else 0) = 0 := rfl

theorem ite_hl_holding :
    (if holdsLock PC.holding then (1 : Nat) else 0) = 1 := rfl

theorem ite_hl_haveVal (v : Int) :
    (if holdsLock (PC.haveVal v) then (1 : Nat) else 0) = 1 := rfl

theorem ite_hl_done : (if holdsLock PC.done then (1 : Nat) else 0) = 0 := rfl

theorem ite_done_start : (if isDone PC.start then (1 : Nat) else 0) = 0 := rfl

theorem ite_done_holding :
    (if isDone PC.holding then (1 : Nat) else 0) = 0 := rfl

theorem ite_done_haveVal (v : Int) :
    (if isDone (PC.haveVal v) then (1 : Nat) else 0) = 0 := rfl

theorem ite_done_done : (if isDone PC.done then (1 : Nat) else 0) = 1 := rfl

theorem countP_replicate_start (p : PC → Bool) (n : Nat) (hp : p PC.start = false) :
    (List.replicate n PC.start).countP p = 0 := by
  rw [List.countP_eq_zero]
  intro a ha
  rw [List.eq_of_mem_replicate ha, hp]
  simp

theorem counterInv_init (n : Nat) : CounterInv n (init n) := by
  refine ⟨by simp [init], ?_, ?_, ?_⟩
  · show (List.replicate n PC.start).countP holdsLock ≤ 1
    rw [countP_replicate_start holdsLock n rfl]
    omega
  · show (0 : Int) = ((List.replicate n PC.start).countP isDone : Int)
    rw [countP_replicate_start isDone n rfl]
    simp
  · intro v hv
    exact absurd (List.eq_of_mem_replicate hv) (by simp)

theorem counterInv_step {n : Nat} {s t : CState} (hinv : CounterInv n s) (hst : Step s t) :
    CounterInv n t := by
  obtain ⟨hlen, hlock, hcnt, hhv⟩ := hinv
  cases hst with
  | acquire l r c hfree =>
      rw [countP_middle, ite_hl_start] at hfree
      refine ⟨?_, ?_, ?_, ?_⟩
      · simpa using hlen
      · show (l ++ PC.holding :: r).countP holdsLock ≤ 1
        rw [countP_middle, ite_hl_holding]
        omega
      · show c = ((l ++ PC.holding :: r).countP isDone : Int)
        rw [countP_middle, ite_done_holding]
        have hc : c = ((l ++ PC.start :: r).countP isDone : Int) := hcnt
        rw [countP_middle, ite_done_start] at hc
        exact hc
      · intro v hv
        apply hhv
        simp only [List.mem_append, List.mem_cons] at hv ⊢
        rcases hv with h | h | h
        · exact Or.inl h
        · exact absurd h (by simp)
        · exact Or.inr (Or.inr h)
  | read l r c =>
      have hlock' : (l ++ PC.holding :: r).countP holdsLock ≤ 1 := hlock
      rw [countP_middle, ite_hl_holding] at hlock'
      refine ⟨?_, ?_, ?_, ?_⟩
      · simpa using hlen
      · show (l ++ PC.haveVal c :: r).countP holdsLock ≤ 1
        rw [countP_middle, ite_hl_haveVal]
        omega
      · show c = ((l ++ PC.haveVal c :: r).countP isDone : Int)
        rw [countP_middle, ite_done_haveVal]
        have hc : c = ((l ++ PC.holding :: r).countP isDone : Int) := hcnt
        rw [countP_middle, ite_done_holding] at hc
        exact hc
      · intro v hv
        simp only [List.mem_append, List.mem_cons] at hv
        rcases hv with h | h | h
        · exact hhv v (by simp [h])
        · injection h with h1
        · exact hhv v (by simp [h])
  | write l r c v =>
      have hvc : v = c := hhv v (by simp)
      have hlock' : (l ++ PC.haveVal v :: r).countP holdsLock ≤ 1 := hlock
      rw [countP_middle, ite_hl_haveVal] at hlock'
      have hl0 : l.countP holdsLock = 0 ∧ r.countP holdsLock = 0 := by omega
      refine ⟨?_, ?_, ?_, ?_⟩
      · simpa using hlen
      · show (l ++ PC.done :: r).countP holdsLock ≤ 1
        rw [countP_middle, ite_hl_done]
        omega
      · show v + 1 = ((l ++ PC.done :: r).countP isDone : Int)
        rw [countP_middle, ite_done_done]
        have hc : c = ((l ++ PC.haveVal v :: r).countP isDone : Int) := hcnt
        rw [countP_middle, ite_done_haveVal] at hc
        subst hvc
        push_cast at hc ⊢
        omega
      · intro w hw
        simp only [List.mem_append, List.mem_cons] at hw
        rcases hw with h | h | h
        · exfalso
          have := List.countP_eq_zero.mp hl0.1 _ h
          simp [holdsLock] at this
        · exact absurd h (by simp)
        · exfalso
          have := List.countP_eq_zero.mp hl0.2 _ h
          simp [holdsLock] at this

theorem counterInv_reachable {n : Nat} {s : CState} (h : Reachable (init n) s) :
    CounterInv n s := by
  induction h with
  | refl => exact counterInv_init n
  | tail _ hst ih => exact counterInv_step ih hst

/-- A sequential schedule that runs each pending task to completion in
turn, used to exhibit concrete executions. -/
theorem run_pending (k : Nat) (l : List PC) (c : Int)
    (hl : l.countP holdsLock = 0) :
    Relation.ReflTransGen Step ⟨l ++ List.replicate k PC.start, c⟩
      ⟨l ++ List.replicate k PC.done, c + k⟩ := by
  induction k generalizing l c with
  | zero => simpa using Relation.ReflTransGen.refl
  | succ k ih =>
      have hfree : (l ++ PC.start :: List.replicate k PC.start).countP holdsLock
          = 0 := by
        rw [countP_middle, ite_hl_start, hl,
          countP_replicate_start holdsLock k rfl]
      have s1 : Step ⟨l ++ PC.start :: List.replicate k PC.start, c⟩
          ⟨l ++ PC.holding :: List.replicate k PC.start, c⟩ :=
        Step.acquire l (List.replicate k PC.start) c hfree
      have s2 : Step ⟨l ++ PC.holding :: List.replicate k PC.start, c⟩
          ⟨l ++ PC.haveVal c :: List.replicate k PC.start, c⟩ :=
        Step.read l (List.replicate k PC.start) c
      have s3 : Step ⟨l ++ PC.haveVal c :: List.replicate k PC.start, c⟩
          ⟨l ++ PC.done :: List.replicate k PC.start, c + 1⟩ :=
        Step.write l (List.replicate k PC.start) c c
      have hl' : (l ++ [PC.done]).countP holdsLock = 0 := by
        rw [List.countP_append, hl]
        rfl
      have rest := ih (l ++ [PC.done]) (c + 1) hl'
      have heq1 : (l ++ [PC.done]) ++ List.replicate k PC.start
          = l ++ PC.done :: List.replicate k PC.start := by simp
      have heq2 : (l ++ [PC.done]) ++ List.replicate k PC.done
          = l ++ PC.done :: List.replicate k PC.done := by simp
      rw [heq1, heq2] at rest
      have harith : c + 1 + (k : Int) = c + ((k : Nat) + 1 : Nat) := by
        push_cast
        ring
      rw [harith] at rest
      rw [List.replicate_succ, List.replicate_succ]
      exact Relation.ReflTransGen.head s1 (Relation.ReflTransGen.head s2
        (Relation.ReflTransGen.head s3 rest))

/-- Every task runs to completion under the sequential schedule. -/
theorem reach_all_done (n : Nat) :
    Reachable (init n) ⟨List.replicate n PC.done, (n : Int)⟩ := by
  have := run_pending n [] 0 (by simp)
  simpa [init, Reachable] using this

theorem counter_final_eq (n : Nat) (s : CState)
    (h : Reachable (init n) s) (hd : ∀ p ∈ s.pcs, p = PC.done) :
    s.counter = (n : Int) := by
  obtain ⟨hlen, _, hcnt, _⟩ := counterInv_reachable h
  have hall : s.pcs.countP isDone = s.pcs.length := by
    rw [List.countP_eq_length]
    intro a ha
    rw [hd a ha]
    rfl
  rw [hcnt, hall, hlen]

/-- C1: spawning N tasks that each lock the shared counter (initialized
to 0), increment it by one and release, then joining all of them, makes
the final locked read of the counter exactly N, for every N and every
scheduling interleaving of the tasks. -/
theorem counter_increments_linearizable (n : Nat) (s : CState)
    (h : Reachable (init n) s) (hd : ∀ p ∈ s.pcs, p = PC.done) :
    s.counter = (n : Int) :=
  counter_final_eq n s h hd

theorem counter_increments_linearizable_witness :
    CState.counter ⟨List.replicate 3 PC.done, (3 : Int)⟩ = ((3 : Nat) : Int) :=
  counter_increments_linearizable 3 ⟨List.replicate 3 PC.done, (3 : Int)⟩
    (reach_all_done 3) (fun _ hp => List.eq_of_mem_replicate hp)

/-- C5: in every reachable state of the shared-counter program at most one
task holds the exclusive view of the Shared Cell; a task whose `acquire`
is not enabled stays blocked at `start` (the step relation only permits
acquisition while no other task holds the lock), and the lock is released
by the scope-exit of the critical section (the `write` step). -/
theorem mutex_at_most_one_holder (n : Nat) (s : CState)
    (h : Reachable (init n) s) :
    s.pcs.countP holdsLock ≤ 1 :=
  (counterInv_reachable h).2.1

theorem mutex_at_most_one_holder_witness :
    List.countP holdsLock (CState.pcs ⟨[PC.holding], 0⟩) ≤ 1 :=
  mutex_at_most_one_holder 1 ⟨[PC.holding], 0⟩
    (Relation.ReflTransGen.single (Step.acquire [] [] 0 (by decide)))

/-- Rust's half-open range `a..b`, as iterated by a `for` loop: the
integers from `a` inclusive to `b` exclusive. -/
def rustRange (a b : Nat) : List Nat := List.range' a (b - a)

/-- Number of incrementing tasks spawned by the demonstration's
`for _ in 1..10` loop (src/Rust/concurrency.rs). -/
def demoTaskCount : Nat := (rustRange 1 10).length

/-- C9: the demonstrated spawn loop iterates over `1..10` and therefore
spawns exactly 9 incrementing tasks, so after joining every handle the
final locked read of the counter is exactly 9. -/
theorem demo_spawns_nine_tasks (s : CState)
    (h : Reachable (init demoTaskCount) s) (hd : ∀ p ∈ s.pcs, p = PC.done) :
    demoTaskCount = 9 ∧ s.counter = (9 : Int) := by
  have h9 : demoTaskCount = 9 := by decide
  refine ⟨h9, ?_⟩
  have := counter_final_eq demoTaskCount s h hd
  rw [h9] at this
  simpa using this

theorem demo_spawns_nine_tasks_witness :
    demoTaskCount = 9 ∧
      CState.counter ⟨List.replicate 9 PC.done, (9 : Int)⟩ = (9 : Int) :=
  demo_spawns_nine_tasks ⟨List.replicate 9 PC.done, (9 : Int)⟩
    (reach_all_done demoTaskCount) (fun _ hp => List.eq_of_mem_replicate hp)

/-- Modelled from the spec: the terminal outcome of one spawned Task — a
normal result value or an unrecoverable failure confined to the task's
own thread of control (the Task Runner and its `spawn`/`join` live in the
language's standard library, outside the repository's sources). -/
inductive Outcome (R : Type) where
  | ok : R → Outcome R
  | panicked : Outcome R
deriving DecidableEq

/-- Modelled from the spec: the Task Handle returned by `spawn`, an owned
token recording the spawned unit's terminal outcome. -/
structure JoinHandle (R : Type) where
  outcome : Outcome R
deriving DecidableEq

/-- Modelled from the spec: `spawn(work)` starts `work` in its own thread
of control and returns a handle to its outcome; the outcome itself is
whatever the unit of work terminates with. -/
def spawn {R : Type} (work : Unit → Outcome R) : JoinHandle R :=
  ⟨work ()⟩

/-- Propagation failure surfaced by `join` when the joined task terminated
via unrecoverable failure; distinct from every normal result. -/
inductive JoinError where
  | propagatedPanic : JoinError
deriving DecidableEq

/-- Modelled from the spec: `join(handle)` blocks until the referenced
task terminates, returning its result on normal termination and a
propagation failure if the task failed. -/
def join {R : Type} (h : JoinHandle R) : Except JoinError R :=
  match h.outcome with
  | Outcome.ok r => Except.ok r
  | Outcome.panicked => Except.error JoinError.propagatedPanic

/-- Modelled from the spec: dropping a handle without joining detaches the
task; its outcome is discarded and nothing is surfaced to the caller. -/
def dropHandle {R : Type} (_h : JoinHandle R) : Unit := ()

/-- C3: for every pure function f and input x, spawning a work unit that
computes f(x) and then joining its handle returns exactly f(x). -/
theorem join_spawn_pure {A R : Type} (f : A → R) (x : A) :
    join (spawn (fun _ => Outcome.ok (f x))) = Except.ok (f x) := rfl

/-- C6: an unrecoverable failure inside a spawned task never crashes the
caller or the process directly — `spawn` always hands back a handle, and
dropping the handle surfaces nothing — and the failure is surfaced as a
propagation failure, distinct from every normal result, exactly when that
task's handle is joined. -/
theorem panic_surfaced_only_at_join {R : Type} (work : Unit → Outcome R) :
    (join (spawn work) = Except.error JoinError.propagatedPanic
      ↔ work () = Outcome.panicked) ∧
    (∀ r : R, join (spawn work) = Except.ok r ↔ work () = Outcome.ok r) ∧
    dropHandle (spawn work) = () := by
  refine ⟨?_, ?_, rfl⟩
  · cases hw : work () <;> simp [join, spawn, hw]
  · intro r
    cases hw : work () <;> simp [join, spawn, hw]

theorem panic_surfaced_only_at_join_witness :
    join (spawn (fun _ => (Outcome.panicked : Outcome Nat)))
      = Except.error JoinError.propagatedPanic :=
  (panic_surfaced_only_at_join (fun _ => (Outcome.panicked : Outcome Nat))).1.mpr rfl

/-- Error returned to a sender whose channel's receive end is gone. -/
inductive SendError where
  | receiverGone : SendError
deriving DecidableEq

/-- Error outcomes of the non-blocking receive: queue momentarily empty
but senders remain, or empty with every sender gone. -/
inductive TryRecvError where
  | empty : TryRecvError
  | disconnected : TryRecvError
deriving DecidableEq

/-- End-of-stream signal of the blocking receive on a closed, drained
channel; a normal terminal signal, not an error of the program. -/
inductive RecvError where
  | disconnected : RecvError
deriving DecidableEq

/-- Modelled from the spec: the state of an mpsc Channel — the FIFO queue
of undelivered messages, the count of open send ends (clones included),
and whether the single receive end is still alive (mpsc itself lives in
the language's standard library, outside the repository's sources). -/
structure ChannelState (α : Type) where
  queue : List α
  senders : Nat
  receiverAlive : Bool
deriving DecidableEq

/-- Modelled from the spec: `create()` — a fresh open channel with one
send end, a live receive end and an empty queue. -/
def channel (α : Type) : ChannelState α := ⟨[], 1, true⟩

/-- Modelled from the spec: a Channel is closed exactly when its
open-sender count has reached zero. -/
def ChannelState.closed {α : Type} (s : ChannelState α) : Prop :=
  s.senders = 0

/-- Modelled from the spec: `sender.clone()` — an additional independent
send end; increments the open-sender count. -/
def ChannelState.clone {α : Type} (s : ChannelState α) : ChannelState α :=
  ⟨s.queue, s.senders + 1, s.receiverAlive⟩

/-- Modelled from the spec: dropping one send end decrements the
open-sender count. -/
def ChannelState.dropSender {α : Type} (s : ChannelState α) : ChannelState α :=
  ⟨s.queue, s.senders - 1, s.receiverAlive⟩

/-- Modelled from the spec: `sender.send(msg)` — never blocks: it
enqueues `msg` at the tail and succeeds while the receive end is alive,
and returns an error to the sender (leaving the state unchanged) exactly
when the receive end has been dropped. -/
def ChannelState.send {α : Type} (s : ChannelState α) (m : α) :
    ChannelState α × Except SendError Unit :=
  if s.receiverAlive then
    (⟨s.queue ++ [m], s.senders, s.receiverAlive⟩, Except.ok ())
  else (s, Except.error SendError.receiverGone)

/-- Modelled from the spec: `receiver.try_recv()` — total on every
channel state (never blocks): the head message when one is immediately
available, otherwise a nothing-ready error. -/
def ChannelState.try_recv {α : Type} (s : ChannelState α) :
    ChannelState α × Except TryRecvError α :=
  match s.queue with
  | m :: rest => (⟨rest, s.senders, s.receiverAlive⟩, Except.ok m)
  | [] =>
      (s, Except.error
        (if s.senders = 0 then TryRecvError.disconnected else TryRecvError.empty))

/-- Modelled from the spec: `receiver.recv()` — blocks until a message is
available or the channel is closed and drained.  `none` models a call
with no immediate outcome (the calling thread waits); otherwise the next
message in FIFO order, or end-of-stream once closed and drained. -/
def ChannelState.recv {α : Type} (s : ChannelState α) :
    Option (ChannelState α × Except RecvError α) :=
  match s.queue with
  | m :: rest => some (⟨rest, s.senders, s.receiverAlive⟩, Except.ok m)
  | [] =>
      if s.senders = 0 then some (s, Except.error RecvError.disconnected)
      else none

/-- C7: `send` returns immediately on every channel state; it enqueues the
message at the queue's tail and succeeds exactly when the receive end is
still alive, and it returns an error to the sender — leaving the channel
unchanged — exactly when the receive end has been dropped. -/
theorem send_never_blocks {α : Type} (s : ChannelState α) (m : α) :
    ((ChannelState.send s m).2 = Except.ok () ↔ s.receiverAlive = true) ∧
    ((ChannelState.send s m).2 = Except.error SendError.receiverGone
      ↔ s.receiverAlive = false) ∧
    (s.receiverAlive = true →
      (ChannelState.send s m).1
        = ⟨s.queue ++ [m], s.senders, s.receiverAlive⟩) ∧
    (s.receiverAlive = false → (ChannelState.send s m).1 = s) := by
  cases hra : s.receiverAlive <;>
    simp [ChannelState.send, hra]

theorem send_never_blocks_witness :
    (ChannelState.send (channel Nat) 5).1 = ⟨[5], 1, true⟩ :=
  (send_never_blocks (channel Nat) 5).2.2.1 rfl

/-- C8: `try_recv` returns immediately on every channel state: the head
message when the queue is nonempty, otherwise a nothing-ready error; in
particular, on an empty and still-open channel it returns `empty` without
waiting and leaves the channel unchanged, while the blocking `recv` on
that same state has no immediate outcome (the caller would wait). -/
theorem try_recv_never_blocks {α : Type} (s : ChannelState α) :
    (∀ m rest, s.queue = m :: rest →
      ChannelState.try_recv s
        = (⟨rest, s.senders, s.receiverAlive⟩, Except.ok m)) ∧
    (s.queue = [] → ∃ e, ChannelState.try_recv s = (s, Except.error e)) ∧
    (s.queue = [] → 0 < s.senders →
      ChannelState.try_recv s = (s, Except.error TryRecvError.empty) ∧
      ChannelState.recv s = none) := by
  refine ⟨?_, ?_, ?_⟩
  · intro m rest hq
    simp [ChannelState.try_recv, hq]
  · intro hq
    refine ⟨if s.senders = 0 then TryRecvError.disconnected
      else TryRecvError.empty, ?_⟩
    simp [ChannelState.try_recv, hq]
  · intro hq hs
    have hne : ¬s.senders = 0 := by omega
    constructor
    · simp [ChannelState.try_recv, hq, hne]
    · simp [ChannelState.recv, hq, hne]

theorem try_recv_never_blocks_witness :
    ChannelState.try_recv (channel Nat)
        = (channel Nat, Except.error TryRecvError.empty) ∧
      ChannelState.recv (channel Nat) = none :=
  (try_recv_never_blocks (channel Nat)).2.2 rfl (by decide)

/-- Rust `Result::unwrap` as run by a thread: the wrapped value on `Ok`,
an unrecoverable failure (abnormal termination of the calling thread of
control) on `Err`. -/
def unwrapOutcome {E R : Type} : Except E R → Outcome R
  | Except.ok r => Outcome.ok r
  | Except.error _ => Outcome.panicked

/-- Channel contents after the single-message demonstration's spawned
thread has run `tx.send(val)` on the fresh channel
(src/Rust/concurrency.rs, first mpsc example). -/
def demoAfterSend : ChannelState String :=
  (ChannelState.send (channel String) "Rust from spawned thread").1

/-- C10: in the single-message channel demonstration exactly one message
is ever sent; the blocking `recv` consumes it, so the immediately
following `try_recv` finds the queue empty and yields an error outcome —
whether or not the spawned sender has already dropped its send end by
then — and unwrapping that outcome terminates the calling thread
abnormally. -/
theorem demo_try_recv_unwrap_panics :
    ChannelState.recv demoAfterSend
      = some (⟨[], 1, true⟩, Except.ok "Rust from spawned thread") ∧
    (ChannelState.try_recv (⟨[], 1, true⟩ : ChannelState String)).2
      = Except.error TryRecvError.empty ∧
    (ChannelState.try_recv
        (ChannelState.dropSender (⟨[], 1, true⟩ : ChannelState String))).2
      = Except.error TryRecvError.disconnected ∧
    unwrapOutcome
        (ChannelState.try_recv (⟨[], 1, true⟩ : ChannelState String)).2
      = Outcome.panicked ∧
    unwrapOutcome
        (ChannelState.try_recv
          (ChannelState.dropSender (⟨[], 1, true⟩ : ChannelState String))).2
      = Outcome.panicked := by
  refine ⟨rfl, rfl, rfl, rfl, rfl⟩

/-- Observable events in a channel's lifecycle. -/
inductive Ev (α : Type) where
  | sent : α → Ev α
  | senderCloned : Ev α
  | senderDropped : Ev α
  | received : α → Ev α
deriving DecidableEq

/-- Modelled from the spec: one labelled step of a channel's lifecycle.
Sending, cloning and dropping a send end each require an open send end to
exist; a `received` step is a blocking receive that found a message. -/
inductive ChanStep {α : Type} :
    ChannelState α → Ev α → ChannelState α → Prop where
  | send (s : ChannelState α) (m : α) (h : 0 < s.senders)
      (ha : s.receiverAlive = true) :
      ChanStep s (Ev.sent m) (ChannelState.send s m).1
  | clone (s : ChannelState α) (h : 0 < s.senders) :
      ChanStep s Ev.senderCloned (ChannelState.clone s)
  | dropSender (s : ChannelState α) (h : 0 < s.senders) :
      ChanStep s Ev.senderDropped (ChannelState.dropSender s)
  | recv (s s' : ChannelState α) (m : α)
      (h : ChannelState.recv s = some (s', Except.ok m)) :
      ChanStep s (Ev.received m) s'

/-- A finite execution of channel steps together with its event trace. -/
inductive ChanTrace {α : Type} :
    ChannelState α → List (Ev α) → ChannelState α → Prop where
  | nil (s : ChannelState α) : ChanTrace s [] s
  | cons {s s' t : ChannelState α} {e : Ev α} {evs : List (Ev α)}
      (h1 : ChanStep s e s') (h2 : ChanTrace s' evs t) :
      ChanTrace s (e :: evs) t

/-- The messages delivered to the receiver along a trace, in order. -/
def receivedOf {α : Type} (evs : List (Ev α)) : List α :=
  evs.filterMap (fun e =>
    match e with
    | Ev.received m => some m
    | _ => none)

theorem recv_ok_inv {α : Type} {s s' : ChannelState α} {m : α}
    (h : ChannelState.recv s = some (s', Except.ok m)) :
    s.queue = m :: s'.queue ∧ s'.senders = s.senders ∧
      s'.receiverAlive = s.receiverAlive := by
  cases hq : s.queue with
  | nil =>
      rw [ChannelState.recv, hq] at h
      by_cases hs : s.senders = 0
      · rw [if_pos hs] at h
        simp at h
      · rw [if_neg hs] at h
        simp at h
  | cons a rest =>
      rw [ChannelState.recv, hq] at h
      simp only [Option.some.injEq, Prod.mk.injEq, Except.ok.injEq] at h
      obtain ⟨h1, h2⟩ := h
      subst h1
      subst h2
      exact ⟨rfl, rfl, rfl⟩

theorem channel_close_aux {α : Type} {s t : ChannelState α}
    {evs : List (Ev α)} (htr : ChanTrace s evs t) :
    s.senders = 0 →
      (∀ m, Ev.sent m ∉ evs) ∧
      t.senders = 0 ∧
      receivedOf evs ++ t.queue = s.queue ∧
      (t.queue = [] →
        ChannelState.recv t = some (t, Except.error RecvError.disconnected)) := by
  induction htr with
  | nil s =>
      intro hclosed
      refine ⟨by simp, hclosed, by simp [receivedOf], ?_⟩
      intro hq
      rw [ChannelState.recv, hq, if_pos hclosed]
  | cons h1 _ ih =>
      intro hclosed
      cases h1 with
      | send m h ha => exact absurd h (by omega)
      | clone h => exact absurd h (by omega)
      | dropSender h => exact absurd h (by omega)
      | recv _ m h =>
          obtain ⟨hq, hs, _⟩ := recv_ok_inv h
          obtain ⟨ihs, iht, ihq, ihr⟩ := ih (hs.trans hclosed)
          refine ⟨?_, iht, ?_, ihr⟩
          · intro m'
            simp only [List.mem_cons]
            rintro (hh | hh)
            · exact absurd hh (by simp)
            · exact ihs m' hh
          · rw [hq]
            simp only [receivedOf, List.filterMap_cons] at ihq ⊢
            simp only [List.cons_append]
            rw [ihq]

/-- C4: a Channel is closed exactly when its open-sender count is zero
(`ChannelState.closed` holds by definition precisely then), and once that
has happened no send, clone or sender-drop step is possible any more:
along any further execution the sender count stays zero, no `sent` event
ever occurs, the messages delivered to the receiver are exactly the
messages that were queued at closing time, delivered in queue order, and
once the queue is drained `recv` reports end-of-stream — so no further
message is ever received on that channel. -/
theorem channel_close_semantics {α : Type} (s t : ChannelState α)
    (evs : List (Ev α)) (hclosed : ChannelState.closed s)
    (htr : ChanTrace s evs t) :
    (∀ m, Ev.sent m ∉ evs) ∧
    ChannelState.closed t ∧
    receivedOf evs ++ t.queue = s.queue ∧
    (t.queue = [] →
      ChannelState.recv t = some (t, Except.error RecvError.disconnected)) :=
  channel_close_aux htr hclosed

theorem channel_close_semantics_witness :
    receivedOf [Ev.received 1, Ev.received 2]
        ++ ChannelState.queue (⟨[], 0, true⟩ : ChannelState Nat) = [1, 2] :=
  (channel_close_semantics ⟨[1, 2], 0, true⟩ ⟨[], 0, true⟩
    [Ev.received 1, Ev.received 2] rfl
    (ChanTrace.cons (ChanStep.recv _ ⟨[2], 0, true⟩ 1 rfl)
      (ChanTrace.cons (ChanStep.recv _ ⟨[], 0, true⟩ 2 rfl)
        (ChanTrace.nil _)))).2.2.1

/-- State of the multiple-producer demonstration
(src/Rust/concurrency.rs, the `tx.clone()` example): the messages sender
A (the thread moved `tx1`) and sender B (the thread moved `tx`) still
have to send, and the channel whose receive end stays with the caller. -/
structure TwoSenders (α : Type) where
  pa : List α
  pb : List α
  chan : ChannelState α

/-- One scheduler step of the multiple-producer demonstration: whichever
spawned sender the scheduler picks, if it still has messages, sends its
next message.  Both send ends stay open for the whole run. -/
inductive TSStep {α : Type} : TwoSenders α → TwoSenders α → Prop where
  | sendA (m : α) (pa pb : List α) (c : ChannelState α) :
      TSStep ⟨m :: pa, pb, c⟩ ⟨pa, pb, (ChannelState.send c m).1⟩
  | sendB (m : α) (pa pb : List α) (c : ChannelState α) :
      TSStep ⟨pa, m :: pb, c⟩ ⟨pa, pb, (ChannelState.send c m).1⟩

/-- Reachability of the multiple-producer demonstration under arbitrary
interleaving of the two senders. -/
def TSReach {α : Type} : TwoSenders α → TwoSenders α → Prop :=
  Relation.ReflTransGen TSStep

/-- An order-preserving merge of two lists: `Interleave as bs cs` holds
when `cs` consists of the elements of `as` and of `bs`, each in its
original relative order. -/
inductive Interleave {α : Type} : List α → List α → List α → Prop where
  | nil : Interleave [] [] []
  | left {as bs cs : List α} (a : α) (h : Interleave as bs cs) :
      Interleave (a :: as) bs (a :: cs)
  | right {as bs cs : List α} (b : α) (h : Interleave as bs cs) :
      Interleave as (b :: bs) (b :: cs)

theorem interleave_sublist_left {α : Type} {as bs cs : List α}
    (h : Interleave as bs cs) : List.Sublist as cs := by
  induction h with
  | nil => exact List.Sublist.slnil
  | left a _ ih => exact List.Sublist.cons₂ a ih
  | right b _ ih => exact List.Sublist.cons b ih

theorem interleave_sublist_right {α : Type} {as bs cs : List α}
    (h : Interleave as bs cs) : List.Sublist bs cs := by
  induction h with
  | nil => exact List.Sublist.slnil
  | left a _ ih => exact List.Sublist.cons a ih
  | right b _ ih => exact List.Sublist.cons₂ b ih

theorem interleave_nil_right {α : Type} {as bs cs : List α}
    (h : Interleave as bs cs) (hb : bs = []) : cs = as := by
  induction h with
  | nil => rfl
  | left a _ ih => rw [ih hb]
  | right b _ _ => exact absurd hb (by simp)

theorem ts_step_alive {α : Type} {u v : TwoSenders α}
    (h : TSStep u v) (ha : u.chan.receiverAlive = true) :
    v.chan.receiverAlive = true := by
  cases h with
  | sendA m pa pb c => simp [ChannelState.send, ha] at ha ⊢; simp [ha]
  | sendB m pa pb c => simp [ChannelState.send, ha] at ha ⊢; simp [ha]

theorem ts_run_interleaves {α : Type} {st fin : TwoSenders α}
    (h : TSReach st fin) (halive : st.chan.receiverAlive = true)
    (hfa : fin.pa = []) (hfb : fin.pb = []) :
    ∃ q, fin.chan.queue = st.chan.queue ++ q ∧ Interleave st.pa st.pb q := by
  induction h using Relation.ReflTransGen.head_induction_on with
  | refl =>
      refine ⟨[], by simp, ?_⟩
      rw [hfa, hfb]
      exact Interleave.nil
  | head hstep _ ih =>
      have halive' := ts_step_alive hstep halive
      obtain ⟨q', hq', hint'⟩ := ih halive'
      cases hstep with
      | sendA m pa pb c =>
          refine ⟨m :: q', ?_, Interleave.left m hint'⟩
          have hc : c.receiverAlive = true := halive
          have hsend : (ChannelState.send c m).1.queue = c.queue ++ [m] := by
            simp [ChannelState.send, hc]
          rw [hq', hsend]
          simp
      | sendB m pa pb c =>
          refine ⟨m :: q', ?_, Interleave.right m hint'⟩
          have hc : c.receiverAlive = true := halive
          have hsend : (ChannelState.send c m).1.queue = c.queue ++ [m] := by
            simp [ChannelState.send, hc]
          rw [hq', hsend]
          simp

/-- The sequence of messages the receiver obtains by performing up to
`fuel` successive blocking receives, stopping when a call would block or
reports end-of-stream. -/
def recvUpTo {α : Type} : Nat → ChannelState α → List α
  | 0, _ => []
  | Nat.succ n, s =>
    match ChannelState.recv s with
    | some (s2, Except.ok m) => m :: recvUpTo n s2
    | _ => []

theorem recvUpTo_queue {α : Type} (q : List α) (sn : Nat) (ra : Bool) :
    recvUpTo q.length ⟨q, sn, ra⟩ = q := by
  induction q with
  | nil => rfl
  | cons m rest ih =>
      show recvUpTo (rest.length + 1) ⟨m :: rest, sn, ra⟩ = m :: rest
      rw [recvUpTo, ChannelState.recv]
      exact congrArg (List.cons m) ih

/-- C2: in the multiple-producer demonstration, for every run in which
both senders have sent all their messages (under any scheduler
interleaving of the two), each sender's messages sit in the channel's
FIFO queue in exactly their send order (the send sequence is a sublist of
the queue); with a single active sender the queue is exactly its send
sequence; and the receiver, performing successive blocking receives,
observes the queue in exactly that order. -/
theorem fifo_per_sender {α : Type} (as bs : List α) (fin : TwoSenders α)
    (h : TSReach ⟨as, bs, channel α⟩ fin)
    (hfa : fin.pa = []) (hfb : fin.pb = []) :
    List.Sublist as fin.chan.queue ∧
    List.Sublist bs fin.chan.queue ∧
    (bs = [] → fin.chan.queue = as) ∧
    recvUpTo fin.chan.queue.length fin.chan = fin.chan.queue := by
  obtain ⟨q, hq, hint⟩ := ts_run_interleaves h rfl hfa hfb
  have hq' : fin.chan.queue = q := by simpa [channel] using hq
  refine ⟨?_, ?_, ?_, ?_⟩
  · rw [hq']
    exact interleave_sublist_left hint
  · rw [hq']
    exact interleave_sublist_right hint
  · intro hbs
    rw [hq']
    exact interleave_nil_right hint hbs
  · obtain ⟨fa, fb, fc⟩ := fin
    obtain ⟨fq, fsn, fra⟩ := fc
    exact recvUpTo_queue fq fsn fra

theorem fifo_per_sender_witness :
    List.Sublist [10, 20]
        (ChannelState.queue (⟨[10, 30, 20], 1, true⟩ : ChannelState Nat)) ∧
      List.Sublist [30]
        (ChannelState.queue (⟨[10, 30, 20], 1, true⟩ : ChannelState Nat)) := by
  have h := fifo_per_sender [10, 20] [30] ⟨[], [], ⟨[10, 30, 20], 1, true⟩⟩
    (Relation.ReflTransGen.head (TSStep.sendA 10 [20] [30] (channel Nat))
      (Relation.ReflTransGen.head (TSStep.sendB 30 [20] [] ⟨[10], 1, true⟩)
        (Relation.ReflTransGen.head (TSStep.sendA 20 [] [] ⟨[10, 30], 1, true⟩)
          Relation.ReflTransGen.refl)))
    rfl rfl
  exact ⟨h.1, h.2.1⟩
